import Mathlib

/-!
Shallow embedding of the coordination core of the bgg-scraper repository:
the lease-based claim protocol of `GameRepository`, the payload update
`updateGameWithAllDetails`, the `RateLimiter` dispatch loop, the per-worker
batch loop of `DetailScraper.scrapeGameDetails`, and the parallel launcher
`runParallelScrapers`.  The games table is a `List GameRow`; each repository
method wrapped in a database transaction is one atomic state transition.
Timestamps are naturals; `Date.now()` values are passed in explicitly.
-/

/-- Community "best player count" poll row (table `communityPlayerRating`,
keyed by `(gameId, playerCount)`; the `gameId` component is implicit in the
row's placement inline on its game). -/
structure CommunityPlayerRating where
  playerCount : Int
  bestPercentage : Option Int
  recommendedPercentage : Option Int
  notRecommendedPercentage : Option Int
  totalVotes : Option Int
deriving DecidableEq, Repr

/-- Community "suggested age" poll row (table `communityAgeRating`, keyed by
`(gameId, age)`). -/
structure CommunityAgeRating where
  age : Int
  percentage : Option Int
  voteCount : Option Int
deriving DecidableEq, Repr

/-- One row of the `game` table, with its three relationship collections and
its community-poll rows inlined (a related row exists for the game iff the
corresponding entry is in the list; relation entities are identified by their
unique natural key, the name).  `weight` is stored as an integer stand-in for
the decimal complexity rating: every query in the coordination core tests only
its presence.  `processingBy`/`processingAt` are the lease fields. -/
structure GameRow where
  id : Nat
  rank : Int
  name : String
  bggUrl : String
  year : Option Int
  minPlayers : Option Int
  maxPlayers : Option Int
  minPlayingTime : Option Int
  maxPlayingTime : Option Int
  weight : Option Int
  languageDependenceId : Option Int
  officialAge : Option Int
  scrapedAt : Nat
  processingBy : Option String
  processingAt : Option Nat
  categories : List String
  mechanisms : List String
  families : List String
  communityPlayerRatings : List CommunityPlayerRating
  communityAgeRatings : List CommunityAgeRating
deriving DecidableEq, Repr

/-- The projection `select { id, bggUrl, name }` used by the claim query
(`Pick<Game, 'id' | 'bggUrl' | 'name'>`). -/
structure GameSummary where
  id : Nat
  bggUrl : String
  name : String
deriving DecidableEq, Repr

/-- Projection of a row to the three selected fields. -/
def toSummary (g : GameRow) : GameSummary :=
  { id := g.id, bggUrl := g.bggUrl, name := g.name }

/-- The completeness predicate's negation, as written in the `where` clause of
`findAllWithoutDetails` and `claimGamesForProcessing`: the game still needs
processing iff `weight` is null, or it has no category, no mechanism and no
family links. -/
def isPending (g : GameRow) : Bool :=
  g.weight.isNone || (g.categories.isEmpty && g.mechanisms.isEmpty && g.families.isEmpty)

/-- The full claim-query filter: pending and unleased (`processingBy: null`). -/
def pendingUnleased (g : GameRow) : Bool :=
  g.processingBy.isNone && isPending g

/-- Ordering used by `orderBy: { id: 'asc' }`. -/
def idLe (a b : GameRow) : Prop :=
  a.id ≤ b.id

instance : DecidableRel idLe := fun a b => Nat.decLe a.id b.id

instance : IsTotal GameRow idLe := ⟨fun a b => Nat.le_total a.id b.id⟩

instance : IsTrans GameRow idLe := ⟨fun _ _ _ h h₂ => Nat.le_trans h h₂⟩

/-- Result order of a `findMany` with `orderBy: { id: 'asc' }`. -/
def sortById (l : List GameRow) : List GameRow :=
  List.insertionSort idLe l

/-- GameRepository.claimGamesForProcessing: inside one transaction, select up
to `batchSize` pending unleased games ordered by id ascending (projected to
`id`, `bggUrl`, `name`), then set `processingBy := workerId` and
`processingAt := now` on the selected ids; return the selection and the
updated table (the table unchanged when the selection is empty). -/
def claimGamesForProcessing (db : List GameRow) (workerId : String)
    (batchSize : Nat) (now : Nat) : List GameSummary × List GameRow :=
  let availableGames :=
    ((sortById (db.filter pendingUnleased)).take batchSize).map toSummary
  if availableGames.isEmpty then
    ([], db)
  else
    let gameIds : List Nat := availableGames.map (fun g => g.id)
    (availableGames,
      db.map (fun g =>
        if g.id ∈ gameIds then
          { g with processingBy := some workerId, processingAt := some now }
        else g))

/-- GameRepository.releaseClaimedGames: `updateMany` clearing both lease
fields on every row with `processingBy = workerId`. -/
def releaseClaimedGames (db : List GameRow) (workerId : String) : List GameRow :=
  db.map (fun g =>
    if g.processingBy = some workerId then
      { g with processingBy := none, processingAt := none }
    else g)

/-- GameRepository.releaseAllClaimedGames: `updateMany` clearing both lease
fields on every row with `processingBy` non-null, returning the matched-row
count. -/
def releaseAllClaimedGames (db : List GameRow) : Nat × List GameRow :=
  ((db.filter (fun g => g.processingBy ≠ none)).length,
    db.map (fun g =>
      if g.processingBy ≠ none then
        { g with processingBy := none, processingAt := none }
      else g))

/-- The detail payload passed to `updateGameWithAllDetails` (the `GameDetails`
shape produced by the extractor: scalar fields, three relationship name
collections, and the two community-poll collections). -/
structure GameDetails where
  year : Option Int
  minPlayers : Option Int
  maxPlayers : Option Int
  minPlayingTime : Option Int
  maxPlayingTime : Option Int
  weight : Option Int
  officialAge : Option Int
  languageDependenceText : Option String
  categories : List String
  mechanisms : List String
  families : List String
  communityPlayerRatings : List CommunityPlayerRating
  communityAgeRatings : List CommunityAgeRating
deriving DecidableEq, Repr

/-- Relationship-table upsert (`gameCategory` / `gameMechanism` /
`gameFamily`, unique on the game-entity pair, with an empty `update`):
create the link iff it is absent. -/
def insertIfAbsent (l : List String) (entity : String) : List String :=
  if entity ∈ l then l else l ++ [entity]

/-- Upsert of a `communityPlayerRating` row keyed by `playerCount`: overwrite
the existing row's data fields, or create the row. -/
def upsertPlayerRating (l : List CommunityPlayerRating)
    (r : CommunityPlayerRating) : List CommunityPlayerRating :=
  if l.any (fun x => x.playerCount = r.playerCount) then
    l.map (fun x => if x.playerCount = r.playerCount then r else x)
  else l ++ [r]

/-- Upsert of a `communityAgeRating` row keyed by `age`. -/
def upsertAgeRating (l : List CommunityAgeRating)
    (r : CommunityAgeRating) : List CommunityAgeRating :=
  if l.any (fun x => x.age = r.age) then
    l.map (fun x => if x.age = r.age then r else x)
  else l ++ [r]

/-- Effect of `updateGameWithAllDetails` on the one row matched by its id:
overwrite the scalar fields with the payload's values (nulls included), set
`scrapedAt`, resolve the language-dependence text to an id (`langIdOf` stands
for the `findOrCreateLanguageDependence` table lookup), and upsert each entry
of the three relationship collections and the two community collections. -/
def applyDetails (g : GameRow) (details : GameDetails)
    (langIdOf : String → Int) (now : Nat) : GameRow :=
  { g with
    year := details.year
    minPlayers := details.minPlayers
    maxPlayers := details.maxPlayers
    minPlayingTime := details.minPlayingTime
    maxPlayingTime := details.maxPlayingTime
    weight := details.weight
    officialAge := details.officialAge
    languageDependenceId := details.languageDependenceText.map langIdOf
    scrapedAt := now
    categories := details.categories.foldl insertIfAbsent g.categories
    mechanisms := details.mechanisms.foldl insertIfAbsent g.mechanisms
    families := details.families.foldl insertIfAbsent g.families
    communityPlayerRatings :=
      details.communityPlayerRatings.foldl upsertPlayerRating g.communityPlayerRatings
    communityAgeRatings :=
      details.communityAgeRatings.foldl upsertAgeRating g.communityAgeRatings }

/-- GameRepository.updateGameWithAllDetails: update the row whose id is
`gameId` with the payload (`where: { id: gameId }` matches the unique id). -/
def updateGameWithAllDetails (db : List GameRow) (gameId : Nat)
    (details : GameDetails) (langIdOf : String → Int) (now : Nat) : List GameRow :=
  db.map (fun g => if g.id = gameId then applyDetails g details langIdOf now else g)

/-- Per-item step of the batch loop in `DetailScraper.scrapeGameDetails`:
`scrapeGameDetailPage` followed by the persistence write, inside a
`try`/`catch` that logs and continues.  `fails` tells whether the item's
extraction-or-persistence attempt throws (`detailsOf` gives the payload it
would persist otherwise); a failing attempt leaves the table unchanged. -/
def processItem (db : List GameRow) (s : GameSummary) (fails : Nat → Bool)
    (detailsOf : Nat → GameDetails) (langIdOf : String → Int) (now : Nat) :
    List GameRow :=
  if fails s.id then db else updateGameWithAllDetails db s.id (detailsOf s.id) langIdOf now

/-- The `for (const game of gamesToScrape)` loop: each claimed item is
attempted in claim order, failures caught and logged, the loop continuing
with the next item. -/
def processBatch (db : List GameRow) (batch : List GameSummary)
    (fails : Nat → Bool) (detailsOf : Nat → GameDetails)
    (langIdOf : String → Int) (now : Nat) : List GameRow :=
  batch.foldl (fun acc s => processItem acc s fails detailsOf langIdOf now) db

/-- One claim pass of the worker loop followed by the worker's `finally`
cleanup (`releaseClaimedGames(this.workerId)`): claim a batch, process every
item of it, then clear this worker's leases on exit. -/
def workerClaimProcessRelease (db : List GameRow) (workerId : String)
    (batchSize : Nat) (fails : Nat → Bool) (detailsOf : Nat → GameDetails)
    (langIdOf : String → Int) (tClaim tWork : Nat) : List GameRow :=
  let claimed := claimGamesForProcessing db workerId batchSize tClaim
  releaseClaimedGames (processBatch claimed.2 claimed.1 fails detailsOf langIdOf tWork) workerId

/-- One queued unit of work handed to `RateLimiter.throttle`: how long the
awaited operation runs, and the outcome (`Except.ok` when `fn` resolves,
`Except.error` when it rejects) with which its promise settles. -/
structure ThrottledOp where
  duration : Nat
  outcome : Except String Int
deriving Repr

/-- Dispatch record produced by the rate limiter's loop for one queued
operation: the instant the task is started (`lastRequestTime` is set to it),
the instant the awaited task finishes and its promise settles, and the
outcome it settles with. -/
structure DispatchedOp where
  dispatchTime : Nat
  settleTime : Nat
  outcome : Except String Int
deriving Repr

/-- RateLimiter.processQueue: while the queue is non-empty, compute
`randomDelay = minDelay + rand k` (with `rand k` standing for the sampled
`Math.random() * (maxDelay - minDelay)`), wait
`max 0 (randomDelay - (now - lastRequestTime))` (natural subtraction), shift
the head, record the dispatch time, and await the task — which catches its
own error, so the loop always proceeds to the next element.  The clock is
ideal: a wait of `w` ends exactly `w` later, and a task started at `t` with
duration `d` settles at `t + d`. -/
def processQueue (rand : Nat → Nat) (minDelay : Nat) (k : Nat)
    (lastRequestTime now : Nat) : List ThrottledOp → List DispatchedOp
  | [] => []
  | op :: rest =>
    let timeSinceLastRequest := now - lastRequestTime
    let randomDelay := minDelay + rand k
    let waitTime := randomDelay - timeSinceLastRequest
    let dispatchTime := now + waitTime
    let settleTime := dispatchTime + op.duration
    { dispatchTime := dispatchTime, settleTime := settleTime, outcome := op.outcome } ::
      processQueue rand minDelay (k + 1) dispatchTime settleTime rest

/-- Dispatch history of a fresh RateLimiter (`lastRequestTime = 0`) whose
queue holds `ops`, with the dispatcher started at instant `start`. -/
def rateLimiterRun (rand : Nat → Nat) (minDelay start : Nat)
    (ops : List ThrottledOp) : List DispatchedOp :=
  processQueue rand minDelay 0 0 start ops

/-- The launcher `runParallelScrapers` after argument parsing: the pre-start
global lease sweep runs inside a `try`/`catch` whose handler only logs and
continues, then the launcher starts `worker-1 … worker-N` regardless.
`sweepThrows` tells whether `releaseAllClaimedGames` throws (a throwing
sweep's transaction leaves the table unchanged).  Returns the started worker
ids and the table the workers start from. -/
def runParallelScrapers (db : List GameRow) (numWorkers : Nat)
    (sweepThrows : Bool) : List String × List GameRow :=
  let dbAfterSweep := if sweepThrows then db else (releaseAllClaimedGames db).2
  ((List.range numWorkers).map (fun i => "worker-" ++ toString (i + 1)), dbAfterSweep)

/-! Helper lemmas shared by several results. -/

/-- A mapped list is `Forall₂`-related to its source by any relation holding
pointwise between an element and its image. -/
theorem forall₂_of_map {α : Type} {R : α → α → Prop} (f : α → α) (l : List α)
    (h : ∀ g ∈ l, R g (f g)) : List.Forall₂ R l (l.map f) :=
  List.forall₂_map_right_iff.mpr (List.forall₂_same.mpr h)

/-- Canonical form of the claim call's returned selection, valid in the
empty-selection branch too. -/
theorem claimGames_fst_eq (db : List GameRow) (w : String) (n now : Nat) :
    (claimGamesForProcessing db w n now).1 =
      ((sortById (db.filter pendingUnleased)).take n).map toSummary := by
  simp only [claimGamesForProcessing]
  split
  next h => exact (List.isEmpty_iff.mp h).symm
  next => rfl

/-- Canonical form of the claim call's post-state, valid in the
empty-selection branch too. -/
theorem claimGames_snd_eq (db : List GameRow) (w : String) (n now : Nat) :
    (claimGamesForProcessing db w n now).2 =
      db.map (fun g =>
        if g.id ∈ ((claimGamesForProcessing db w n now).1).map (fun s => s.id) then
          { g with processingBy := some w, processingAt := some now }
        else g) := by
  rw [claimGames_fst_eq]
  simp only [claimGamesForProcessing]
  split
  next h =>
    rw [List.isEmpty_iff.mp h]
    simp
  next => rfl

/-- Compact row constructor for concrete tables: only the fields the
coordination core reads vary, the remaining payload fields are fixed. -/
def sampleRow (id : Nat) (weight : Option Int) (cats : List String)
    (pBy : Option String) (pAt : Option Nat) : GameRow :=
  { id := id, rank := 1, name := "g" ++ toString id, bggUrl := "u" ++ toString id,
    year := none, minPlayers := none, maxPlayers := none, minPlayingTime := none,
    maxPlayingTime := none, weight := weight, languageDependenceId := none,
    officialAge := none, scrapedAt := 0, processingBy := pBy, processingAt := pAt,
    categories := cats, mechanisms := [], families := [],
    communityPlayerRatings := [], communityAgeRatings := [] }

/-- Claim C9: `releaseClaimedGames(w)` clears the lease fields of exactly the
rows whose `processingBy` equals `w` and leaves every other row and field
unchanged; running it twice equals running it once; and when `w` holds no
lease it changes nothing. -/
theorem releaseClaimedGames_correct (db : List GameRow) (w : String) :
    List.Forall₂ (fun g g' =>
        (g.processingBy = some w →
          g' = { g with processingBy := none, processingAt := none }) ∧
        (g.processingBy ≠ some w → g' = g))
      db (releaseClaimedGames db w) ∧
    releaseClaimedGames (releaseClaimedGames db w) w = releaseClaimedGames db w ∧
    ((∀ g ∈ db, g.processingBy ≠ some w) → releaseClaimedGames db w = db) := by
  simp only [releaseClaimedGames]
  refine ⟨forall₂_of_map _ _ ?_, ?_, ?_⟩
  · intro g _
    by_cases h : g.processingBy = some w <;> simp [h]
  · rw [List.map_map]
    refine List.map_congr_left ?_
    intro g _
    by_cases h : g.processingBy = some w <;> simp [Function.comp, h]
  · intro h
    conv_rhs => rw [← List.map_id' db]
    exact List.map_congr_left (fun g hg => by simp [h g hg])

/-- Claim C8: `releaseAllClaimedGames()` clears the lease fields on every row
whose `processingBy` is non-null regardless of owner, changes nothing else,
returns the number of rows that were leased at the call, and leaves no leased
row behind — a cleared row that was pending is claimable again. -/
theorem releaseAllClaimedGames_correct (db : List GameRow) :
    (releaseAllClaimedGames db).1 = db.countP (fun g => g.processingBy.isSome) ∧
    List.Forall₂ (fun g g' =>
        (g.processingBy ≠ none →
          g' = { g with processingBy := none, processingAt := none } ∧
            (isPending g = true → pendingUnleased g' = true)) ∧
        (g.processingBy = none → g' = g))
      db (releaseAllClaimedGames db).2 ∧
    ∀ g' ∈ (releaseAllClaimedGames db).2, g'.processingBy = none := by
  refine ⟨?_, ?_, ?_⟩
  · simp only [releaseAllClaimedGames]
    rw [List.countP_eq_length_filter]
    congr 1
    refine List.filter_congr ?_
    intro g _
    cases g.processingBy <;> simp
  · simp only [releaseAllClaimedGames]
    refine forall₂_of_map _ _ ?_
    intro g _
    by_cases h : g.processingBy = none
    · simp [h]
    · refine ⟨fun _ => ⟨by simp [h], fun hp => ?_⟩, fun hne => absurd hne h⟩
      simp [h, pendingUnleased, isPending] at hp ⊢
      exact hp
  · intro g' hg'
    simp only [releaseAllClaimedGames] at hg'
    obtain ⟨g, hmem, rfl⟩ := List.mem_map.mp hg'
    by_cases h : g.processingBy = none <;> simp [h]

/-- Claim C10: when the pre-start global lease sweep throws, the launcher
still starts all requested workers (the same worker list a successful sweep
would start) and the workers begin claiming from the unswept table, on which
leases abandoned by a previous crashed run may still be set. -/
theorem sweep_failure_nonfatal (db : List GameRow) (numWorkers : Nat) :
    ((runParallelScrapers db numWorkers true).1).length = numWorkers ∧
    (runParallelScrapers db numWorkers true).1 =
      (runParallelScrapers db numWorkers false).1 ∧
    (runParallelScrapers db numWorkers true).2 = db := by
  refine ⟨?_, rfl, by simp [runParallelScrapers]⟩
  simp [runParallelScrapers]

/-- Lease fields are all-or-nothing: on every row, `processingBy` is non-null
iff `processingAt` is non-null. -/
def LeaseInvariant (db : List GameRow) : Prop :=
  ∀ g ∈ db, (g.processingBy.isSome ↔ g.processingAt.isSome)

/-- Claim C3: each coordinator operation preserves the all-or-nothing lease
invariant, and on every row of the resulting table at most one worker's
identifier is the lease owner. -/
theorem coordinator_preserves_lease_invariant (db : List GameRow) (w : String)
    (n now : Nat) (h : LeaseInvariant db) :
    LeaseInvariant (claimGamesForProcessing db w n now).2 ∧
    LeaseInvariant (releaseClaimedGames db w) ∧
    LeaseInvariant (releaseAllClaimedGames db).2 ∧
    (∀ g ∈ (claimGamesForProcessing db w n now).2, ∀ w₁ w₂,
      g.processingBy = some w₁ → g.processingBy = some w₂ → w₁ = w₂) ∧
    (∀ g ∈ releaseClaimedGames db w, ∀ w₁ w₂,
      g.processingBy = some w₁ → g.processingBy = some w₂ → w₁ = w₂) ∧
    (∀ g ∈ (releaseAllClaimedGames db).2, ∀ w₁ w₂,
      g.processingBy = some w₁ → g.processingBy = some w₂ → w₁ = w₂) := by
  refine ⟨?_, ?_, ?_, ?_, ?_, ?_⟩
  · rw [claimGames_snd_eq]
    intro g' hg'
    obtain ⟨g, hmem, rfl⟩ := List.mem_map.mp hg'
    by_cases hc : g.id ∈ ((claimGamesForProcessing db w n now).1).map (fun s => s.id)
    · simp [hc]
    · simpa [hc] using h g hmem
  · intro g' hg'
    simp only [releaseClaimedGames] at hg'
    obtain ⟨g, hmem, rfl⟩ := List.mem_map.mp hg'
    by_cases hc : g.processingBy = some w
    · simp [hc]
    · simpa [hc] using h g hmem
  · intro g' hg'
    simp only [releaseAllClaimedGames] at hg'
    obtain ⟨g, hmem, rfl⟩ := List.mem_map.mp hg'
    by_cases hc : g.processingBy = none
    · simpa [hc] using h g hmem
    · simp [hc]
  · intro g _ w₁ w₂ h₁ h₂
    rw [h₁] at h₂
    exact Option.some.inj h₂
  · intro g _ w₁ w₂ h₁ h₂
    rw [h₁] at h₂
    exact Option.some.inj h₂
  · intro g _ w₁ w₂ h₁ h₂
    rw [h₁] at h₂
    exact Option.some.inj h₂

/-- Witness for C9 at a one-row table leased by `worker-1`: the release's
characterization holds there, and evaluating the operation shows the lease
actually cleared. -/
theorem releaseClaimedGames_correct_witness :
    (releaseClaimedGames
        (releaseClaimedGames [sampleRow 1 none [] (some "worker-1") (some 4)] "worker-1")
        "worker-1" =
      releaseClaimedGames [sampleRow 1 none [] (some "worker-1") (some 4)] "worker-1") ∧
    releaseClaimedGames [sampleRow 1 none [] (some "worker-1") (some 4)] "worker-1" =
      [sampleRow 1 none [] none none] :=
  ⟨(releaseClaimedGames_correct [sampleRow 1 none [] (some "worker-1") (some 4)] "worker-1").2.1,
    by decide⟩

/-- Witness for C8 at a three-row table with two leases held by different
workers: the count characterization holds there and evaluates to 2. -/
theorem releaseAllClaimedGames_correct_witness :
    ((releaseAllClaimedGames
        [sampleRow 1 none [] (some "worker-1") (some 3),
         sampleRow 2 (some 2) ["a"] (some "worker-2") (some 4),
         sampleRow 3 none [] none none]).1 =
      (List.countP (fun g => g.processingBy.isSome)
        [sampleRow 1 none [] (some "worker-1") (some 3),
         sampleRow 2 (some 2) ["a"] (some "worker-2") (some 4),
         sampleRow 3 none [] none none])) ∧
    (releaseAllClaimedGames
        [sampleRow 1 none [] (some "worker-1") (some 3),
         sampleRow 2 (some 2) ["a"] (some "worker-2") (some 4),
         sampleRow 3 none [] none none]).1 = 2 :=
  ⟨(releaseAllClaimedGames_correct
      [sampleRow 1 none [] (some "worker-1") (some 3),
       sampleRow 2 (some 2) ["a"] (some "worker-2") (some 4),
       sampleRow 3 none [] none none]).1,
    by decide⟩

/-- Witness for C3 at a two-row table satisfying the lease invariant: the
hypothesis is discharged by evaluation and the claim call's post-state keeps
the invariant. -/
theorem coordinator_preserves_lease_invariant_witness :
    LeaseInvariant
      [sampleRow 1 none [] (some "worker-1") (some 3), sampleRow 2 none [] none none] ∧
    LeaseInvariant
      (claimGamesForProcessing
        [sampleRow 1 none [] (some "worker-1") (some 3), sampleRow 2 none [] none none]
        "worker-2" 1 9).2 :=
  ⟨by unfold LeaseInvariant; decide,
    (coordinator_preserves_lease_invariant
      [sampleRow 1 none [] (some "worker-1") (some 3), sampleRow 2 none [] none none]
      "worker-2" 1 9 (by unfold LeaseInvariant; decide)).1⟩

/-- Every item returned by a claim call is the projection of a
pending-and-unleased row of the table it ran against. -/
theorem claimGames_fst_sound (db : List GameRow) (w : String) (n now : Nat) :
    ∀ s ∈ (claimGamesForProcessing db w n now).1,
      ∃ g ∈ db, pendingUnleased g = true ∧ s = toSummary g := by
  intro s hs
  rw [claimGames_fst_eq] at hs
  obtain ⟨g, hg, rfl⟩ := List.mem_map.mp hs
  have hg₁ : g ∈ sortById (db.filter pendingUnleased) := List.mem_of_mem_take hg
  have hg₂ : g ∈ db.filter pendingUnleased :=
    (List.perm_insertionSort idLe (db.filter pendingUnleased)).mem_iff.mp hg₁
  exact ⟨g, (List.mem_filter.mp hg₂).1, (List.mem_filter.mp hg₂).2, rfl⟩

/-- A second claim call running after a first one (the only schedules of two
transactional claims) never returns an id the first call returned: the first
call's lease assignment removes its items from the second call's candidate
set. -/
theorem claim_then_claim_disjoint (db : List GameRow) (wa wb : String)
    (na nb ta tb : Nat) :
    ∀ s ∈ (claimGamesForProcessing db wa na ta).1,
    ∀ r ∈ (claimGamesForProcessing (claimGamesForProcessing db wa na ta).2 wb nb tb).1,
      s.id ≠ r.id := by
  intro s hs r hr heq
  obtain ⟨g₂, hg₂mem, hg₂pu, rfl⟩ := claimGames_fst_sound _ _ _ _ r hr
  rw [claimGames_snd_eq] at hg₂mem
  obtain ⟨g, hg, hfg⟩ := List.mem_map.mp hg₂mem
  by_cases hc : g.id ∈ ((claimGamesForProcessing db wa na ta).1).map (fun x => x.id)
  · rw [if_pos hc] at hfg
    have hby : g₂.processingBy = some wa := by rw [← hfg]
    simp [pendingUnleased, hby] at hg₂pu
  · rw [if_neg hc] at hfg
    subst hfg
    apply hc
    rw [List.mem_map]
    exact ⟨s, hs, by simpa [toSummary] using heq⟩

/-- Claim C2: two claim calls by different workers against the same backlog,
each one atomic transaction, return disjoint item sets in both execution
orders — no schedule of the two transactions hands the same row to both. -/
theorem claimGamesForProcessing_no_overlap (db : List GameRow) (w₁ w₂ : String)
    (n₁ n₂ t₁ t₂ : Nat) (hw : w₁ ≠ w₂) :
    (∀ s ∈ (claimGamesForProcessing db w₁ n₁ t₁).1,
      ∀ r ∈ (claimGamesForProcessing (claimGamesForProcessing db w₁ n₁ t₁).2 w₂ n₂ t₂).1,
        s.id ≠ r.id) ∧
    (∀ s ∈ (claimGamesForProcessing db w₂ n₂ t₂).1,
      ∀ r ∈ (claimGamesForProcessing (claimGamesForProcessing db w₂ n₂ t₂).2 w₁ n₁ t₁).1,
        s.id ≠ r.id) :=
  ⟨claim_then_claim_disjoint db w₁ w₂ n₁ n₂ t₁ t₂,
    claim_then_claim_disjoint db w₂ w₁ n₂ n₁ t₂ t₁⟩

/-- Witness for C2 on a two-row backlog: both successive claims are
non-empty (each worker gets one item) and the theorem instance gives their
disjointness. -/
theorem claimGamesForProcessing_no_overlap_witness :
    ("worker-1" : String) ≠ "worker-2" ∧
    (claimGamesForProcessing
      [sampleRow 1 none [] none none, sampleRow 2 none [] none none]
      "worker-1" 1 5).1 ≠ [] ∧
    (claimGamesForProcessing
      (claimGamesForProcessing
        [sampleRow 1 none [] none none, sampleRow 2 none [] none none]
        "worker-1" 1 5).2
      "worker-2" 1 6).1 ≠ [] ∧
    (∀ s ∈ (claimGamesForProcessing
        [sampleRow 1 none [] none none, sampleRow 2 none [] none none]
        "worker-1" 1 5).1,
      ∀ r ∈ (claimGamesForProcessing
        (claimGamesForProcessing
          [sampleRow 1 none [] none none, sampleRow 2 none [] none none]
          "worker-1" 1 5).2
        "worker-2" 1 6).1,
        s.id ≠ r.id) :=
  ⟨by decide, by decide, by decide,
    (claimGamesForProcessing_no_overlap
      [sampleRow 1 none [] none none, sampleRow 2 none [] none none]
      "worker-1" "worker-2" 1 1 5 6 (by decide)).1⟩

/-- Claim C1: with unique row ids, a claim call returns exactly
`min batchSize P` items where `P` counts the pending unleased rows; the
returned ids are strictly ascending; each returned item is the
`id`/`bggUrl`/`name` projection of a pending unleased row; any pending
unleased row not returned has an id above every returned id (the selection
takes the smallest ids); and afterwards exactly the returned rows carry the
worker's lease with the call's timestamp while every other row is unchanged. -/
theorem claimGamesForProcessing_correct (db : List GameRow) (w : String)
    (n now : Nat) (hnd : (db.map (fun g => g.id)).Nodup) :
    ((claimGamesForProcessing db w n now).1).length =
      min n (db.countP pendingUnleased) ∧
    List.Sorted (· < ·) (((claimGamesForProcessing db w n now).1).map (fun s => s.id)) ∧
    (∀ s ∈ (claimGamesForProcessing db w n now).1,
      ∃ g ∈ db, pendingUnleased g = true ∧ s = toSummary g) ∧
    (∀ g ∈ db, pendingUnleased g = true →
      (∀ s ∈ (claimGamesForProcessing db w n now).1, s.id ≠ g.id) →
      ∀ s ∈ (claimGamesForProcessing db w n now).1, s.id < g.id) ∧
    List.Forall₂ (fun g g' =>
        (g.id ∈ ((claimGamesForProcessing db w n now).1).map (fun s => s.id) →
          g' = { g with processingBy := some w, processingAt := some now }) ∧
        (g.id ∉ ((claimGamesForProcessing db w n now).1).map (fun s => s.id) →
          g' = g))
      db (claimGamesForProcessing db w n now).2 := by
  have hperm : List.Perm (sortById (db.filter pendingUnleased)) (db.filter pendingUnleased) :=
    List.perm_insertionSort idLe (db.filter pendingUnleased)
  have hsorted : List.Sorted idLe (sortById (db.filter pendingUnleased)) :=
    List.sorted_insertionSort idLe (db.filter pendingUnleased)
  refine ⟨?_, ?_, claimGames_fst_sound db w n now, ?_, ?_⟩
  · rw [claimGames_fst_eq, List.length_map, List.length_take, hperm.length_eq,
      List.countP_eq_length_filter]
  · rw [claimGames_fst_eq, List.map_map]
    have hids : (((sortById (db.filter pendingUnleased)).take n).map
        (fun s => s.id) : List Nat).Nodup := by
      have h₁ : ((sortById (db.filter pendingUnleased)).map (fun g => g.id)).Nodup := by
        refine (hperm.map (fun g => g.id)).nodup_iff.mpr ?_
        exact ((List.filter_sublist db).map (fun g => g.id)).nodup hnd
      exact (((sortById (db.filter pendingUnleased)).take_sublist n).map
        (fun g => g.id)).nodup h₁
    have hle : List.Sorted (· ≤ ·)
        (((sortById (db.filter pendingUnleased)).take n).map (fun s => s.id)) := by
      refine List.pairwise_map.mpr ?_
      exact (List.Pairwise.sublist
        (List.take_sublist n (sortById (db.filter pendingUnleased))) hsorted).imp
        (fun h => h)
    exact hle.lt_of_le hids
  · intro g hg hpu hnotin s hs
    have hgL : g ∈ sortById (db.filter pendingUnleased) :=
      hperm.mem_iff.mpr (List.mem_filter.mpr ⟨hg, hpu⟩)
    have hsplit := List.take_append_drop n (sortById (db.filter pendingUnleased))
    have hgsplit : g ∈ (sortById (db.filter pendingUnleased)).take n ∨
        g ∈ (sortById (db.filter pendingUnleased)).drop n := by
      rw [← List.mem_append, hsplit]
      exact hgL
    rcases hgsplit with htk | hdr
    · exfalso
      refine hnotin (toSummary g) ?_ rfl
      rw [claimGames_fst_eq]
      exact List.mem_map_of_mem toSummary htk
    · rw [claimGames_fst_eq] at hs
      obtain ⟨x, hx, rfl⟩ := List.mem_map.mp hs
      have hpa : ∀ a ∈ (sortById (db.filter pendingUnleased)).take n,
          ∀ b ∈ (sortById (db.filter pendingUnleased)).drop n, idLe a b := by
        have := hsorted
        rw [← hsplit] at this
        exact (List.pairwise_append.mp this).2.2
      have hxg : x.id ≤ g.id := hpa x hx g hdr
      have hne : (toSummary x).id ≠ g.id := by
        refine hnotin (toSummary x) ?_
        rw [claimGames_fst_eq]
        exact List.mem_map_of_mem toSummary hx
      exact lt_of_le_of_ne hxg hne
  · rw [claimGames_snd_eq]
    refine forall₂_of_map _ _ ?_
    intro g _
    by_cases hc : g.id ∈ ((claimGamesForProcessing db w n now).1).map (fun s => s.id)
    · simp [hc]
    · simp [hc]

/-- Witness for C1 on a three-row table (one pending unleased row, one
complete row, one leased row): the id-uniqueness hypothesis is discharged by
evaluation, the size equation holds by the theorem, and the selection
evaluates to exactly the pending unleased row's projection. -/
theorem claimGamesForProcessing_correct_witness :
    (List.map (fun g => g.id)
      [sampleRow 2 none [] none none,
       sampleRow 1 (some 3) ["a"] none none,
       sampleRow 3 none [] (some "worker-9") (some 1)]).Nodup ∧
    ((claimGamesForProcessing
        [sampleRow 2 none [] none none,
         sampleRow 1 (some 3) ["a"] none none,
         sampleRow 3 none [] (some "worker-9") (some 1)]
        "worker-1" 2 7).1).length =
      min 2 (List.countP pendingUnleased
        [sampleRow 2 none [] none none,
         sampleRow 1 (some 3) ["a"] none none,
         sampleRow 3 none [] (some "worker-9") (some 1)]) ∧
    (claimGamesForProcessing
        [sampleRow 2 none [] none none,
         sampleRow 1 (some 3) ["a"] none none,
         sampleRow 3 none [] (some "worker-9") (some 1)]
        "worker-1" 2 7).1 = [{ id := 2, bggUrl := "u2", name := "g2" }] :=
  ⟨by decide,
    (claimGamesForProcessing_correct
      [sampleRow 2 none [] none none,
       sampleRow 1 (some 3) ["a"] none none,
       sampleRow 3 none [] (some "worker-9") (some 1)]
      "worker-1" 2 7 (by decide)).1,
    by decide⟩

/-- The all-null detail payload, the shape `extractGameDetails` returns when
the page carries no extractable data. -/
def emptyDetails : GameDetails :=
  { year := none, minPlayers := none, maxPlayers := none, minPlayingTime := none,
    maxPlayingTime := none, weight := none, officialAge := none,
    languageDependenceText := none, categories := [], mechanisms := [],
    families := [], communityPlayerRatings := [], communityAgeRatings := [] }

/-- Relationship upserts only add links, so a fold of them never shrinks the
collection. -/
theorem length_le_foldl_insertIfAbsent (xs l : List String) :
    l.length ≤ (xs.foldl insertIfAbsent l).length := by
  induction xs generalizing l with
  | nil => simp
  | cons x xs ih =>
    refine le_trans ?_ (ih (insertIfAbsent l x))
    unfold insertIfAbsent
    split
    · exact le_refl _
    · simp

/-- A fold of relationship upserts over a non-empty collection stays
non-empty. -/
theorem foldl_insertIfAbsent_ne_nil (xs l : List String) (h : l ≠ []) :
    xs.foldl insertIfAbsent l ≠ [] := by
  intro hE
  have hle := length_le_foldl_insertIfAbsent xs l
  rw [hE] at hle
  simp only [List.length_nil, Nat.le_zero, List.length_eq_zero] at hle
  exact h hle

/-- Counterexample to C4: a complete row (non-null weight, one category
link) is made pending again by an `updateGameWithAllDetails` carrying the
extractor's all-null payload — the update overwrites `weight` with null
while the relationship links survive only as the sole completeness source
the row no longer has — and the next claim pass selects it. -/
theorem completeness_not_monotonic_counterexample :
    isPending (sampleRow 1 (some 3) ["Strategy"] none none) = false ∧
    (updateGameWithAllDetails [sampleRow 1 (some 3) ["Strategy"] none none] 1
        emptyDetails (fun _ => 0) 5).all (fun g => isPending g) = true ∧
    (claimGamesForProcessing
        (updateGameWithAllDetails [sampleRow 1 (some 3) ["Strategy"] none none] 1
          emptyDetails (fun _ => 0) 5)
        "worker-1" 10 6).1 =
      [{ id := 1, bggUrl := "u1", name := "g1" }] := by
  decide

/-- Claim C4 as amended: an update whose payload carries a non-null weight
keeps every complete row complete (relationship upserts only add links), and
a claim pass only ever selects rows that are still pending — but an update
whose payload has a null weight can make a complete row pending again. -/
theorem completeness_monotonic_of_weight_present (db : List GameRow)
    (gameId : Nat) (details : GameDetails) (langIdOf : String → Int) (now : Nat)
    (hw : details.weight ≠ none) :
    List.Forall₂ (fun g g' => isPending g = false → isPending g' = false)
      db (updateGameWithAllDetails db gameId details langIdOf now) ∧
    (∀ w n t, ∀ s ∈ (claimGamesForProcessing db w n t).1,
      ∃ g ∈ db, isPending g = true ∧ s = toSummary g) := by
  constructor
  · simp only [updateGameWithAllDetails]
    refine forall₂_of_map _ _ ?_
    intro g _
    by_cases hid : g.id = gameId
    · rw [if_pos hid]
      intro hgp
      simp only [isPending, applyDetails, Bool.or_eq_false_iff,
        Bool.and_eq_false_iff] at hgp ⊢
      obtain ⟨hw₁, hrest⟩ := hgp
      refine ⟨?_, ?_⟩
      · cases hd : details.weight with
        | none => exact absurd hd hw
        | some v => rfl
      · have hne : ∀ l : List String, l.isEmpty = false →
            ∀ xs : List String, (xs.foldl insertIfAbsent l).isEmpty = false := by
          intro l hl xs
          have h₁ : l ≠ [] := by
            intro hE
            rw [hE] at hl
            simp at hl
          have h₂ := foldl_insertIfAbsent_ne_nil xs l h₁
          cases hfe : xs.foldl insertIfAbsent l with
          | nil => exact absurd hfe h₂
          | cons a t => rfl
        rcases hrest with (hc | hm) | hf
        · exact Or.inl (Or.inl (hne g.categories hc details.categories))
        · exact Or.inl (Or.inr (hne g.mechanisms hm details.mechanisms))
        · exact Or.inr (hne g.families hf details.families)
    · rw [if_neg hid]
      exact id
  · intro w n t s hs
    obtain ⟨g, hg, hpu, rfl⟩ := claimGames_fst_sound db w n t s hs
    refine ⟨g, hg, ?_, rfl⟩
    simp only [pendingUnleased, Bool.and_eq_true] at hpu
    exact hpu.2

/-- Witness for C4's amended statement: the weight hypothesis is discharged
at a payload carrying `weight = 2`, and the complete row stays complete
through the update. -/
theorem completeness_monotonic_witness :
    ({ emptyDetails with weight := some 2 } : GameDetails).weight ≠ none ∧
    (updateGameWithAllDetails [sampleRow 1 (some 3) ["Strategy"] none none] 1
        { emptyDetails with weight := some 2 } (fun _ => 0) 5).all
      (fun g => !(isPending g)) = true ∧
    List.Forall₂ (fun g g' => isPending g = false → isPending g' = false)
      [sampleRow 1 (some 3) ["Strategy"] none none]
      (updateGameWithAllDetails [sampleRow 1 (some 3) ["Strategy"] none none] 1
        { emptyDetails with weight := some 2 } (fun _ => 0) 5) :=
  ⟨by decide, by decide,
    (completeness_monotonic_of_weight_present
      [sampleRow 1 (some 3) ["Strategy"] none none] 1
      { emptyDetails with weight := some 2 } (fun _ => 0) 5 (by decide)).1⟩

/-- An id appearing among a batch's successful items appears in the batch. -/
theorem succ_id_mem_batch (batch : List GameSummary) (fails : Nat → Bool) :
    ∀ x ∈ (batch.filter (fun s => !(fails s.id))).map (fun s => s.id),
      x ∈ batch.map (fun s => s.id) := by
  intro x hx
  obtain ⟨y, hy, rfl⟩ := List.mem_map.mp hx
  exact List.mem_map_of_mem _ (List.mem_of_mem_filter hy)

/-- Row-level effect of the batch loop: every row keeps its lease fields
untouched; a row whose id is a successfully processed batch item receives
exactly that item's payload update; every other row is unchanged.  Requires
the batch's ids to be distinct (claim batches are, having come from one
table selection). -/
theorem processBatch_forall₂ (fails : Nat → Bool) (detailsOf : Nat → GameDetails)
    (langIdOf : String → Int) (now : Nat) (batch : List GameSummary) :
    ∀ db : List GameRow, (batch.map (fun s => s.id)).Nodup →
      List.Forall₂ (fun g g' =>
          g'.processingBy = g.processingBy ∧ g'.processingAt = g.processingAt ∧
          (g.id ∈ (batch.filter (fun s => !(fails s.id))).map (fun s => s.id) →
            g' = applyDetails g (detailsOf g.id) langIdOf now) ∧
          (g.id ∉ (batch.filter (fun s => !(fails s.id))).map (fun s => s.id) →
            g' = g))
        db (processBatch db batch fails detailsOf langIdOf now) := by
  induction batch with
  | nil =>
    intro db _
    simp only [processBatch, List.foldl_nil]
    refine List.forall₂_same.mpr ?_
    intro g _
    exact ⟨rfl, rfl, by simp, fun _ => rfl⟩
  | cons s rest ih =>
    intro db hnd
    have hs : s.id ∉ rest.map (fun x => x.id) := by
      simp only [List.map_cons, List.nodup_cons] at hnd
      exact hnd.1
    have hrest : (rest.map (fun x => x.id)).Nodup := by
      simp only [List.map_cons, List.nodup_cons] at hnd
      exact hnd.2
    by_cases hf : fails s.id
    · have ih' := ih db hrest
      simpa [processBatch, List.foldl_cons, processItem, hf,
        List.filter_cons] using ih'
    · have ih' := ih (db.map (fun g =>
        if g.id = s.id then applyDetails g (detailsOf s.id) langIdOf now else g)) hrest
      simp only [processBatch] at ih' ⊢
      rw [List.foldl_cons]
      have hstep : processItem db s fails detailsOf langIdOf now =
          db.map (fun g =>
            if g.id = s.id then applyDetails g (detailsOf s.id) langIdOf now else g) := by
        simp [processItem, hf, updateGameWithAllDetails]
      rw [hstep]
      have hmap := List.forall₂_map_left_iff.mp ih'
      refine hmap.imp ?_
      intro g b hR
      obtain ⟨hpby, hpat, hin, hnotin⟩ := hR
      have hfil : (s :: rest).filter (fun x => !(fails x.id)) =
          s :: rest.filter (fun x => !(fails x.id)) := by
        simp [List.filter_cons, hf]
      by_cases hgs : g.id = s.id
      · have hub : b = applyDetails g (detailsOf s.id) langIdOf now := by
          have hnot : (if g.id = s.id then applyDetails g (detailsOf s.id) langIdOf now
              else g).id ∉ (rest.filter (fun x => !(fails x.id))).map (fun x => x.id) := by
            rw [if_pos hgs]
            intro hmem
            refine hs ?_
            have hid : (applyDetails g (detailsOf s.id) langIdOf now).id = g.id := rfl
            rw [hid, hgs] at hmem
            exact succ_id_mem_batch rest fails s.id hmem
          have := hnotin hnot
          rw [if_pos hgs] at this
          exact this
        refine ⟨?_, ?_, ?_, ?_⟩
        · rw [hub]
          rfl
        · rw [hub]
          rfl
        · intro _
          rw [hub, hgs]
        · intro hmem
          exfalso
          refine hmem ?_
          rw [hfil, List.map_cons, hgs]
          exact List.mem_cons_self s.id _
      · rw [if_neg hgs] at hpby hpat hin hnotin
        refine ⟨hpby, hpat, ?_, ?_⟩
        · intro hmem
          rw [hfil, List.map_cons] at hmem
          rcases List.mem_cons.mp hmem with h | h
          · exact absurd h hgs
          · exact hin h
        · intro hmem
          refine hnotin ?_
          intro h
          refine hmem ?_
          rw [hfil, List.map_cons]
          exact List.mem_cons_of_mem _ h

/-- Counterexample to C5: one pending row is claimed by `worker-1` and its
scrape attempt fails; at the end of the item's attempt (and of the batch) the
row is still leased by `worker-1` — the lease is not cleared per item — and a
further claim pass returns nothing, so the item is not yet eligible to be
claimed again; only the worker's final cleanup makes it so. -/
theorem batch_failure_lease_counterexample :
    (claimGamesForProcessing [sampleRow 1 none [] none none] "worker-1" 5 10).1 =
      [{ id := 1, bggUrl := "u1", name := "g1" }] ∧
    processBatch
        (claimGamesForProcessing [sampleRow 1 none [] none none] "worker-1" 5 10).2
        (claimGamesForProcessing [sampleRow 1 none [] none none] "worker-1" 5 10).1
        (fun _ => true) (fun _ => emptyDetails) (fun _ => 0) 11 =
      [{ sampleRow 1 none [] none none with
          processingBy := some "worker-1", processingAt := some 10 }] ∧
    (claimGamesForProcessing
        (processBatch
          (claimGamesForProcessing [sampleRow 1 none [] none none] "worker-1" 5 10).2
          (claimGamesForProcessing [sampleRow 1 none [] none none] "worker-1" 5 10).1
          (fun _ => true) (fun _ => emptyDetails) (fun _ => 0) 11)
        "worker-2" 5 12).1 = [] ∧
    releaseClaimedGames
        (processBatch
          (claimGamesForProcessing [sampleRow 1 none [] none none] "worker-1" 5 10).2
          (claimGamesForProcessing [sampleRow 1 none [] none none] "worker-1" 5 10).1
          (fun _ => true) (fun _ => emptyDetails) (fun _ => 0) 11)
        "worker-1" =
      [sampleRow 1 none [] none none] := by
  decide

/-- Claim C5 as amended: a failing item's attempt is caught, leaving the
table rows' lease fields untouched while every other successfully attempted
item of the batch still receives its payload update; the failing item stays
leased by the worker until the loop's final cleanup
(`releaseClaimedGames` in the `finally`), which clears its lease and — its
payload being unchanged — leaves it pending and unleased, eligible for a
future run's claim pass. -/
theorem worker_batch_failure_isolation (db : List GameRow)
    (batch : List GameSummary) (fails : Nat → Bool)
    (detailsOf : Nat → GameDetails) (langIdOf : String → Int) (now : Nat)
    (w : String) (hnd : (batch.map (fun s => s.id)).Nodup) :
    List.Forall₂ (fun g g' =>
        g'.processingBy = g.processingBy ∧ g'.processingAt = g.processingAt ∧
        (g.id ∈ (batch.filter (fun s => !(fails s.id))).map (fun s => s.id) →
          g' = applyDetails g (detailsOf g.id) langIdOf now) ∧
        (g.id ∉ (batch.filter (fun s => !(fails s.id))).map (fun s => s.id) →
          g' = g))
      db (processBatch db batch fails detailsOf langIdOf now) ∧
    List.Forall₂ (fun g g' =>
        g.processingBy = some w →
        g.id ∉ (batch.filter (fun s => !(fails s.id))).map (fun s => s.id) →
          g' = { g with processingBy := none, processingAt := none } ∧
            (isPending g = true → pendingUnleased g' = true))
      db (releaseClaimedGames (processBatch db batch fails detailsOf langIdOf now) w) := by
  have HB := processBatch_forall₂ fails detailsOf langIdOf now batch db hnd
  refine ⟨HB, ?_⟩
  simp only [releaseClaimedGames]
  refine List.forall₂_map_right_iff.mpr ?_
  refine HB.imp ?_
  intro g b hR hby hnotin
  obtain ⟨_, _, _, hkeep⟩ := hR
  have hbg : b = g := hkeep hnotin
  subst hbg
  rw [if_pos hby]
  refine ⟨rfl, ?_⟩
  intro hp
  simp [pendingUnleased, isPending] at hp ⊢
  exact hp

/-- Witness for C5's amended statement on a two-item batch where the first
item fails and the second succeeds: the distinct-ids hypothesis is
discharged by evaluation; the batch leaves both leases in place and updates
only the successful item, and the final cleanup unleases the failed item. -/
theorem worker_batch_failure_isolation_witness :
    (([{ id := 1, bggUrl := "u1", name := "g1" },
       { id := 2, bggUrl := "u2", name := "g2" }] :
        List GameSummary).map (fun s => s.id)).Nodup ∧
    List.Forall₂ (fun g g' =>
        g.processingBy = some "worker-1" →
        g.id ∉ (([{ id := 1, bggUrl := "u1", name := "g1" },
            { id := 2, bggUrl := "u2", name := "g2" }] :
              List GameSummary).filter
            (fun s => !((fun i => i = 1) s.id))).map (fun s => s.id) →
          g' = { g with processingBy := none, processingAt := none } ∧
            (isPending g = true → pendingUnleased g' = true))
      [sampleRow 1 none [] (some "worker-1") (some 10),
       sampleRow 2 none [] (some "worker-1") (some 10)]
      (releaseClaimedGames
        (processBatch
          [sampleRow 1 none [] (some "worker-1") (some 10),
           sampleRow 2 none [] (some "worker-1") (some 10)]
          [{ id := 1, bggUrl := "u1", name := "g1" },
           { id := 2, bggUrl := "u2", name := "g2" }]
          (fun i => i = 1) (fun _ => emptyDetails) (fun _ => 0) 11)
        "worker-1") :=
  ⟨by decide,
    (worker_batch_failure_isolation
      [sampleRow 1 none [] (some "worker-1") (some 10),
       sampleRow 2 none [] (some "worker-1") (some 10)]
      [{ id := 1, bggUrl := "u1", name := "g1" },
       { id := 2, bggUrl := "u2", name := "g2" }]
      (fun i => i = 1) (fun _ => emptyDetails) (fun _ => 0) 11
      "worker-1" (by decide)).2⟩

/-- Each queued operation's dispatch record settles with that operation's own
outcome, in queue order. -/
theorem processQueue_outcome (rand : Nat → Nat) (minDelay : Nat) :
    ∀ (ops : List ThrottledOp) (k last now : Nat),
      List.Forall₂ (fun o r => r.outcome = o.outcome)
        ops (processQueue rand minDelay k last now ops) := by
  intro ops
  induction ops with
  | nil => intro k last now; simp [processQueue]
  | cons op rest ih =>
    intro k last now
    simp only [processQueue]
    exact List.Forall₂.cons rfl (ih (k + 1) _ _)

/-- The dispatcher's loop runs every queued operation exactly once. -/
theorem processQueue_length (rand : Nat → Nat) (minDelay : Nat) :
    ∀ (ops : List ThrottledOp) (k last now : Nat),
      (processQueue rand minDelay k last now ops).length = ops.length := by
  intro ops
  induction ops with
  | nil => intro k last now; simp [processQueue]
  | cons op rest ih =>
    intro k last now
    simp only [processQueue, List.length_cons]
    rw [ih]

/-- Consecutive dispatch records of the loop are separated by at least
`minDelay`, each record is dispatched no earlier than its predecessor
settles, and settle instants are monotone. -/
theorem processQueue_chain (rand : Nat → Nat) (minDelay : Nat) :
    ∀ (ops : List ThrottledOp) (k last now : Nat),
      List.Chain' (fun a b =>
          a.dispatchTime + minDelay ≤ b.dispatchTime ∧
          a.settleTime ≤ b.dispatchTime ∧
          a.settleTime ≤ b.settleTime)
        (processQueue rand minDelay k last now ops) := by
  intro ops
  induction ops with
  | nil => intro k last now; simp [processQueue]
  | cons op rest ih =>
    intro k last now
    cases rest with
    | nil => simp [processQueue]
    | cons op₂ rest₂ =>
      simp only [processQueue]
      rw [List.chain'_cons]
      refine ⟨⟨?_, ?_, ?_⟩, ?_⟩
      · dsimp only
        omega
      · dsimp only
        omega
      · dsimp only
        omega
      · have h := ih (k + 1) (now + (minDelay + rand k - (now - last)))
          (now + (minDelay + rand k - (now - last)) + op.duration)
        simpa [processQueue] using h

/-- The dispatch history settles, position by position, with the submitted
operations' outcomes. -/
theorem processQueue_map_outcome (rand : Nat → Nat) (minDelay : Nat) :
    ∀ (ops : List ThrottledOp) (k last now : Nat),
      (processQueue rand minDelay k last now ops).map (fun r => r.outcome) =
        ops.map (fun o => o.outcome) := by
  intro ops
  induction ops with
  | nil => intro k last now; simp [processQueue]
  | cons op rest ih =>
    intro k last now
    simp only [processQueue, List.map_cons]
    rw [ih]

/-- Claim C6: the rate limiter dispatches in exactly submission order — the
settled outcomes align with the queue — consecutive dispatch instants are at
least `minDelay` apart (hence strictly increasing when `minDelay` is
positive), and the operations settle in submission order. -/
theorem rateLimiter_fifo_min_spacing (rand : Nat → Nat) (minDelay start : Nat)
    (ops : List ThrottledOp) :
    (rateLimiterRun rand minDelay start ops).map (fun r => r.outcome) =
      ops.map (fun o => o.outcome) ∧
    List.Chain' (fun a b => a.dispatchTime + minDelay ≤ b.dispatchTime)
      (rateLimiterRun rand minDelay start ops) ∧
    List.Chain' (fun a b => a.settleTime ≤ b.settleTime)
      (rateLimiterRun rand minDelay start ops) ∧
    (0 < minDelay →
      List.Chain' (fun a b => a.dispatchTime < b.dispatchTime)
        (rateLimiterRun rand minDelay start ops)) := by
  have hch := processQueue_chain rand minDelay ops 0 0 start
  refine ⟨processQueue_map_outcome rand minDelay ops 0 0 start,
    hch.imp (fun a b h => h.1), hch.imp (fun a b h => h.2.2), ?_⟩
  intro hmd
  refine hch.imp ?_
  intro a b h
  omega

/-- Witness for C6: three operations submitted back-to-back with
`minDelay = 1000` (sampled extra delay 500, i.e. `maxDelay = 2000`) are
dispatched at the strictly increasing instants 1500, 3000, 6000, with both
gaps at least 1000. -/
theorem rateLimiter_fifo_min_spacing_witness :
    0 < 1000 ∧
    List.Chain' (fun a b => a.dispatchTime < b.dispatchTime)
      (rateLimiterRun (fun _ => 500) 1000 40
        [{ duration := 100, outcome := Except.ok 1 },
         { duration := 3000, outcome := Except.error "boom" },
         { duration := 50, outcome := Except.ok 3 }]) ∧
    (rateLimiterRun (fun _ => 500) 1000 40
        [{ duration := 100, outcome := Except.ok 1 },
         { duration := 3000, outcome := Except.error "boom" },
         { duration := 50, outcome := Except.ok 3 }]).map
      (fun r => r.dispatchTime) = [1500, 3000, 6000] :=
  ⟨by decide,
    (rateLimiter_fifo_min_spacing (fun _ => 500) 1000 40
      [{ duration := 100, outcome := Except.ok 1 },
       { duration := 3000, outcome := Except.error "boom" },
       { duration := 50, outcome := Except.ok 3 }]).2.2.2 (by decide),
    by decide⟩

/-- Claim C7: every queued operation is dispatched exactly once — a
rejection does not stop the dispatcher from reaching the operations queued
after it — and each operation's future settles with that operation's own
outcome, success or failure, in submission order. -/
theorem throttle_outcome_faithful (rand : Nat → Nat) (minDelay start : Nat)
    (ops : List ThrottledOp) :
    (rateLimiterRun rand minDelay start ops).length = ops.length ∧
    List.Forall₂ (fun o r => r.outcome = o.outcome)
      ops (rateLimiterRun rand minDelay start ops) :=
  ⟨processQueue_length rand minDelay ops 0 0 start,
    processQueue_outcome rand minDelay ops 0 0 start⟩
